import Mathlib

/-!
Shallow embedding of `src/regex/scrape_tags.py`: the annotation pattern
matcher (`TAG_RE`), the section/ledger tracker and document scraper
(`scrape_file`), the registry resolver (`load_registry_from_md`,
`get_registry`), the classifier (`enrich_with_family`, the unknown-tag
diagnostic from `main`), and the projections (`format_markdown`,
`json_grouped`).

Lines of a document are modelled as `List Char` (the elements of Python's
`text.splitlines()`, so they contain no newline).  Python regexes are
modelled by deterministic matchers that reproduce the backtracking
behaviour of the concrete patterns of the source (each pattern here admits
at most one successful parse per start position, except the trailing
whitespace/narrative boundary of `TAG_RE`, whose backtracking is modelled
explicitly in `matchNarr`).  `\s` is modelled by the six ASCII whitespace
characters and `\d` by the ASCII digits.
-/

namespace ScrapeTags

/-- chars matched by `[A-Z]` -/
def isAsciiUpper (c : Char) : Bool := 'A' ≤ c && c ≤ 'Z'

/-- chars matched by `[a-z]` -/
def isAsciiLower (c : Char) : Bool := 'a' ≤ c && c ≤ 'z'

/-- chars matched by `[A-Za-z]` (the layer class of `TAG_RE`) -/
def isAsciiAlpha (c : Char) : Bool := isAsciiUpper c || isAsciiLower c

/-- chars matched by `\d` -/
def isAsciiDigit (c : Char) : Bool := '0' ≤ c && c ≤ '9'

/-- chars matched by the tag class `[A-Za-z0-9_~∿\-]` of `TAG_RE` -/
def isTagChar (c : Char) : Bool :=
  isAsciiAlpha c || isAsciiDigit c || c == '_' || c == '~' || c == '∿' || c == '-'

/-- chars matched by `\s` (also the chars stripped by Python `str.strip()`) -/
def isPySpace (c : Char) : Bool :=
  c == ' ' || c == '\t' || c == '\n' || c == '\r' || c == '\x0b' || c == '\x0c'

/-- chars matched by the external-registry token class `[A-Z0-9_]` -/
def isRegTokChar (c : Char) : Bool := isAsciiUpper c || isAsciiDigit c || c == '_'

/-- greedy `+` over a char class: the maximal nonempty run, and the rest -/
def takeWhile1 (p : Char → Bool) (cs : List Char) : Option (List Char × List Char) :=
  if (cs.takeWhile p).isEmpty then none else some (cs.takeWhile p, cs.dropWhile p)

/-- match one literal char -/
def eatChar (c : Char) : List Char → Option (List Char)
  | [] => none
  | x :: xs => if x = c then some xs else none

/-- match a literal char sequence -/
def eatLit : List Char → List Char → Option (List Char)
  | [], cs => some cs
  | _ :: _, [] => none
  | p :: ps, c :: cs => if c = p then eatLit ps cs else none

/-- match exactly `n` chars of `\d` -/
def takeDigits : Nat → List Char → Option (List Char × List Char)
  | 0, cs => some ([], cs)
  | _ + 1, [] => none
  | n + 1, c :: cs =>
    if isAsciiDigit c then (takeDigits n cs).map (fun tr => (c :: tr.1, tr.2)) else none

/-- the captured groups of `TAG_RE`: `layer` is the optional bracketed group,
the other four are the mandatory captures (still raw, before upper-casing
and note-stripping done by `scrape_file`) -/
structure TagGroups where
  layer : Option (List Char)
  tag : List Char
  date : List Char
  ver : List Char
  narr : List Char
deriving DecidableEq

/-- the optional `(?:\[(?P<layer>[A-Za-z]+)\])?` group of `TAG_RE`: if the
bracketed form is not present at the current position the regex engine
falls back to matching without the group (which then has to see `\x7b`
right here, exactly as when the group is skipped) -/
def matchLayer (cs : List Char) : Option (List Char) × List Char :=
  match cs with
  | [] => (none, cs)
  | c0 :: cs1 =>
    if c0 = '[' then
      match takeWhile1 isAsciiAlpha cs1 with
      | none => (none, cs)
      | some (ls, rest) =>
        match rest with
        | [] => (none, cs)
        | r0 :: rest2 => if r0 = ']' then (some ls, rest2) else (none, cs)
    else (none, cs)

/-- the `(?P<date>\d\x7b4\x7d-\d\x7b2\x7d-\d\x7b2\x7d)` capture of `TAG_RE` -/
def matchDate (cs : List Char) : Option (List Char × List Char) :=
  match takeDigits 4 cs with
  | none => none
  | some (d1, r1) =>
    match eatChar '-' r1 with
    | none => none
    | some r2 =>
      match takeDigits 2 r2 with
      | none => none
      | some (d2, r3) =>
        match eatChar '-' r3 with
        | none => none
        | some r4 =>
          match takeDigits 2 r4 with
          | none => none
          | some (d3, r5) => some (d1 ++ '-' :: (d2 ++ '-' :: d3), r5)

/-- the `(?P<ver>\d+\.\d+\.\d+)` capture of `TAG_RE` -/
def matchVer (cs : List Char) : Option (List Char × List Char) :=
  match takeWhile1 isAsciiDigit cs with
  | none => none
  | some (v1, r1) =>
    match eatChar '.' r1 with
    | none => none
    | some r2 =>
      match takeWhile1 isAsciiDigit r2 with
      | none => none
      | some (v2, r3) =>
        match eatChar '.' r3 with
        | none => none
        | some r4 =>
          match takeWhile1 isAsciiDigit r4 with
          | none => none
          | some (v3, r5) => some (v1 ++ '.' :: (v2 ++ '.' :: v3), r5)

/-- the trailing `\s+(?P<narr>.+)` of `TAG_RE` with the regex engine's
backtracking: the whitespace run is greedy, but if it swallows the whole
rest of the line the engine gives its last char back so that `.+` can
still match something -/
def matchNarr (cs : List Char) : Option (List Char) :=
  let w := cs.takeWhile isPySpace
  let r := cs.dropWhile isPySpace
  if w.isEmpty then none
  else if r.isEmpty then
    if 2 ≤ w.length then (w.getLast?).map (fun c => [c]) else none
  else some r

/-- the body of `TAG_RE` after the optional layer group: the braced tag,
whitespace, date, whitespace, `v` and version, whitespace, em dash,
whitespace and narrative -/
def matchAfterLayer (ly : Option (List Char)) (cs1 : List Char) : Option TagGroups :=
  match eatChar '\x7b' cs1 with
  | none => none
  | some cs2 =>
    match takeWhile1 isTagChar cs2 with
    | none => none
    | some (tg, cs3) =>
      match eatChar '\x7d' cs3 with
      | none => none
      | some cs4 =>
        match takeWhile1 isPySpace cs4 with
        | none => none
        | some (_, cs5) =>
          match matchDate cs5 with
          | none => none
          | some (dt, cs6) =>
            match takeWhile1 isPySpace cs6 with
            | none => none
            | some (_, cs7) =>
              match eatChar 'v' cs7 with
              | none => none
              | some cs8 =>
                match matchVer cs8 with
                | none => none
                | some (vr, cs9) =>
                  match takeWhile1 isPySpace cs9 with
                  | none => none
                  | some (_, cs10) =>
                    match eatChar '—' cs10 with
                    | none => none
                    | some cs11 =>
                      match matchNarr cs11 with
                      | none => none
                      | some nr => some ⟨ly, tg, dt, vr, nr⟩

/-- the body of `TAG_RE` after the literal `\Tag`, tried at one start position -/
def matchAfterTag (cs : List Char) : Option TagGroups :=
  matchAfterLayer (matchLayer cs).1 (matchLayer cs).2

/-- the literal `\Tag` opening `TAG_RE` -/
def tagLit : List Char := ['\\', 'T', 'a', 'g']

/-- `TAG_RE.search`: try every start position left to right -/
def tagSearch : List Char → Option TagGroups
  | [] => none
  | c :: cs =>
    match eatLit tagLit (c :: cs) with
    | some rest =>
      match matchAfterTag rest with
      | some g => some g
      | none => tagSearch cs
    | none => tagSearch cs

/-- the literal opening of `HDR_RE` up to and including the title's brace -/
def hdrPref : List Char := "\\begin\x7bSectionHeaderLedger\x7d\x7b".toList

/-- the lazy `(?P<title>.+?)\x7d` of `HDR_RE`: at least one char, then
everything up to the first closing brace that follows -/
def titleCapture (cs : List Char) : Option (List Char) :=
  match cs with
  | [] => none
  | c :: rest =>
    if rest.contains '\x7d' then some (c :: rest.takeWhile (fun x => x ≠ '\x7d')) else none

/-- `HDR_RE.search`: leftmost position where the header literal is followed
by a capturable title -/
def hdrSearch : List Char → Option (List Char)
  | [] => none
  | c :: cs =>
    match eatLit hdrPref (c :: cs) with
    | some rest =>
      match titleCapture rest with
      | some t => some t
      | none => hdrSearch cs
    | none => hdrSearch cs

/-- substring containment (how `FTR_RE.search` and `END_RE.search` are used:
those patterns are pure literals, `END_RE`'s alternation giving two) -/
def hasSub (needle : List Char) : List Char → Bool
  | [] => needle.isEmpty
  | c :: cs => needle.isPrefixOf (c :: cs) || hasSub needle cs

/-- the literal of `FTR_RE` -/
def ftrLit : List Char := "\\begin\x7bSectionFooterLedger\x7d".toList

/-- the two literals of `END_RE`'s alternation -/
def endHdrLit : List Char := "\\end\x7bSectionHeaderLedger\x7d".toList

/-- second branch of `END_RE`'s alternation -/
def endFtrLit : List Char := "\\end\x7bSectionFooterLedger\x7d".toList

/-- `FTR_RE.search(line)` is not None -/
def ftrMatch (line : List Char) : Bool := hasSub ftrLit line

/-- `END_RE.search(line)` is not None -/
def endMatch (line : List Char) : Bool := hasSub endHdrLit line || hasSub endFtrLit line

/-- Python `str.strip()` on a char list -/
def pyStrip (cs : List Char) : List Char :=
  ((cs.dropWhile isPySpace).reverse.dropWhile isPySpace).reverse

/-- Python `str.upper()` (the chars it is applied to here are ASCII
letters, digits, underscore and the extended tag symbols, on which
`Char.toUpper` agrees with Python) -/
def pyToUpper (cs : List Char) : List Char := cs.map Char.toUpper

/-- Python `a or b` for an optional string `a`: both None and the empty
string are falsy -/
def pyOr (a : Option String) (b : String) : String :=
  match a with
  | some s => if s = "" then b else s
  | none => b

/-- the unknown-section sentinel of `scrape_file` -/
def sentinel : String := "(unknown section)"

/-- one scraped annotation record (one element of the `entries` list built
by `scrape_file`) -/
structure Entry where
  file : String
  «section» : String
  layer : String
  tag : String
  date : String
  ver : String
  note : String
deriving DecidableEq

/-- the per-line mutable state of the `scrape_file` loop: `in_ledger` and
`ledger_title` (`section_title` is fixed before the loop by the whole-text
`SECTION_RE.search` prescan and is a parameter here) -/
structure ScanState where
  inLedger : Bool
  ledgerTitle : Option String
deriving DecidableEq

/-- the record built by the `if mt:` branch of the `scrape_file` loop -/
def tagRecord (file : String) (sectionTitle : Option String) (s : ScanState)
    (line : List Char) : Option Entry :=
  (tagSearch line).map fun g =>
    { file := file
      «section» := pyOr s.ledgerTitle (pyOr sectionTitle sentinel)
      layer := String.mk (pyToUpper (g.layer.getD []))
      tag := String.mk (pyToUpper g.tag)
      date := String.mk g.date
      ver := String.mk g.ver
      note := String.mk (pyStrip g.narr) }

/-- one iteration of the `for line in text.splitlines():` loop of
`scrape_file` (the `continue` statements are the `none` record results) -/
def stepLine (file : String) (sectionTitle : Option String) (s : ScanState)
    (line : List Char) : ScanState × Option Entry :=
  if s.inLedger = false then
    match hdrSearch line with
    | some t => (⟨true, some (String.mk t)⟩, none)
    | none =>
      if ftrMatch line then (⟨true, some (pyOr sectionTitle sentinel)⟩, none)
      else (s, tagRecord file sectionTitle s line)
  else
    if endMatch line then (⟨false, none⟩, none)
    else (s, tagRecord file sectionTitle s line)

/-- the whole `scrape_file` loop: records in line order, plus final state -/
def scanLines (file : String) (sectionTitle : Option String) :
    ScanState → List (List Char) → List Entry × ScanState
  | s, [] => ([], s)
  | s, l :: ls =>
    let sr := stepLine file sectionTitle s l
    let rest := scanLines file sectionTitle sr.1 ls
    (match sr.2 with
     | some e => e :: rest.1
     | none => rest.1, rest.2)

/-- `scrape_file` on a readable document, given its prescanned section
title and its lines -/
def scrapeLines (file : String) (sectionTitle : Option String)
    (lines : List (List Char)) : List Entry :=
  (scanLines file sectionTitle ⟨false, none⟩ lines).1

/-- the family name constant `STRUCTURAL` -/
def STRUCTURAL : String := "Structural"

/-- the family name constant `PROCESS` -/
def PROCESS : String := "Process"

/-- the family name constant `SYMBOLIC` -/
def SYMBOLIC : String := "Symbolic"

/-- the family name constant `META` -/
def META : String := "Meta"

/-- the family name constant `EPIPHANY` -/
def EPIPHANY : String := "Epiphany"

/-- the five known taxonomy family names -/
def familyNames : List String := [STRUCTURAL, PROCESS, SYMBOLIC, META, EPIPHANY]

/-- the `BUILTIN_REGISTRY` dict literal (its keys are pairwise distinct,
so association-list lookup agrees with the Python dict) -/
def BUILTIN_REGISTRY : List (String × String) :=
  [("GLYPH", STRUCTURAL), ("NODE", STRUCTURAL), ("ARC", STRUCTURAL), ("LATTICE", STRUCTURAL),
   ("CORE", STRUCTURAL), ("GATE", STRUCTURAL), ("BOND", STRUCTURAL), ("SEED", STRUCTURAL),
   ("SPINE", STRUCTURAL), ("KEY", STRUCTURAL),
   ("DRIFT", PROCESS), ("ANCHOR", PROCESS), ("FUSE", PROCESS), ("REFRACT", PROCESS),
   ("SPIRAL", PROCESS), ("TEMPER", PROCESS), ("CAST", PROCESS), ("WARD", PROCESS),
   ("TRACE", PROCESS), ("FLOW", PROCESS), ("BIND", PROCESS),
   ("LIGHT", SYMBOLIC), ("SHDW", SYMBOLIC), ("MOTHER", SYMBOLIC), ("FATHER", SYMBOLIC),
   ("AIR", SYMBOLIC), ("FIRE", SYMBOLIC), ("WATER", SYMBOLIC), ("EARTH", SYMBOLIC),
   ("GNOME", SYMBOLIC), ("OPAL", SYMBOLIC), ("COMPASS", SYMBOLIC), ("LAMP", SYMBOLIC),
   ("FORGE", SYMBOLIC),
   ("META", META), ("ENGRAM", META), ("LEDGER", META), ("TEST", META), ("PROOF", META),
   ("CIPHER", META), ("MAP", META), ("GLOSS", META), ("ARCHIVE", META), ("ITER", META),
   ("ARC_CLIMAX", EPIPHANY), ("GATE_OPEN", EPIPHANY), ("GATE_CLOSE", EPIPHANY),
   ("CORE_REVEAL", EPIPHANY), ("SPIRAL_TURN", EPIPHANY), ("FORGE_STRIKE", EPIPHANY)]

/-- lookup in the built-in registry, `BUILTIN_REGISTRY.get(tag)` -/
def builtinGet (t : String) : Option String := BUILTIN_REGISTRY.lookup t

/-- the `family_map` dict of `load_registry_from_md`, in its insertion
order (the Python loop scans its items in that order and takes the first
key contained in the heading) -/
def family_map : List (String × String) :=
  [("Structural", STRUCTURAL), ("Framework", STRUCTURAL),
   ("Process", PROCESS), ("Development", PROCESS),
   ("Symbolic", SYMBOLIC), ("Philosophical", SYMBOLIC),
   ("Meta", META), ("Operational", META),
   ("Seeded Epiphany Matrix", EPIPHANY), ("Epiphany", EPIPHANY)]

/-- Python `key in h` substring containment -/
def containsSub (h : String) (needle : String) : Bool := hasSub needle.toList h.toList

/-- the `for key, fam in family_map.items(): if key in h: ... break` scan -/
def headingFamily (h : String) : Option String :=
  (family_map.find? (fun kv => containsSub h kv.1)).map Prod.snd

/-- the `current_family` update on a heading line: take the first matching
family key, else keep the previous value -/
def headingUpdate (cur : Option String) (h : String) : Option String :=
  match headingFamily h with
  | some f => some f
  | none => cur

/-- the anchored table-row pattern `^\|\s*([A-Z][A-Z0-9_]+)\s*\|` of
`load_registry_from_md`, returning the captured token -/
def tableTok (h : List Char) : Option (List Char) :=
  match eatChar '|' h with
  | none => none
  | some r1 =>
    match r1.dropWhile isPySpace with
    | [] => none
    | c :: r3 =>
      if isAsciiUpper c then
        match takeWhile1 isRegTokChar r3 with
        | none => none
        | some (t2, r4) =>
          match eatChar '|' (r4.dropWhile isPySpace) with
          | none => none
          | some _ => some (c :: t2)
      else none

/-- one start position of the bracket pattern `\[([A-Z][A-Z0-9_]+)\]` -/
def bracketTokAt (cs : List Char) : Option (List Char) :=
  match cs with
  | b :: c :: rest =>
    if b = '[' then
      if isAsciiUpper c then
        match takeWhile1 isRegTokChar rest with
        | none => none
        | some (t2, r) =>
          match r with
          | [] => none
          | r0 :: _ => if r0 = ']' then some (c :: t2) else none
      else none
    else none
  | _ => none

/-- `re.search` of the bracket pattern: leftmost successful start -/
def bracketSearch : List Char → Option (List Char)
  | [] => none
  | c :: cs =>
    match bracketTokAt (c :: cs) with
    | some t => some t
    | none => bracketSearch cs

/-- registry maps are modelled as lookup functions; this is dict item
assignment `m[k] = v` -/
def updMap (m : String → Option String) (k v : String) : String → Option String :=
  fun t => if t = k then some v else m t

/-- the loop state of `load_registry_from_md`: `current_family` and the
`tag_to_family` dict built so far -/
structure RegState where
  curFam : Option String
  tagMap : String → Option String

/-- Python `line.strip()` -/
def stripLine (line : String) : String := String.mk (pyStrip line.toList)

/-- one iteration of the `for line in text.splitlines():` loop of
`load_registry_from_md` (when `current_family` is None both pattern
branches record nothing, so the state is returned unchanged) -/
def regStep (st : RegState) (line : String) : RegState :=
  if "## ".data.isPrefixOf (stripLine line).data then
    ⟨headingUpdate st.curFam (stripLine line), st.tagMap⟩
  else
    match st.curFam with
    | none => st
    | some fam =>
      match tableTok (stripLine line).data with
      | some t => ⟨st.curFam, updMap st.tagMap (String.mk (pyToUpper t)) fam⟩
      | none =>
        match bracketSearch (stripLine line).data with
        | some t => ⟨st.curFam, updMap st.tagMap (String.mk (pyToUpper t)) fam⟩
        | none => st

/-- `load_registry_from_md` on a readable registry document, given its
lines: the final `tag_to_family` mapping -/
def load_registry_from_md (lines : List String) : String → Option String :=
  (lines.foldl regStep ⟨none, fun _ => none⟩).tagMap

/-- `get_registry`: built-in registry overlaid with the external mapping
(`reg = dict(BUILTIN_REGISTRY); reg.update(md_map)`) -/
def get_registry (ext : String → Option String) : String → Option String :=
  fun t =>
    match ext t with
    | some f => some f
    | none => builtinGet t

/-- one classified record: the `dict(e)` copy plus the derived `family` -/
structure EntryF extends Entry where
  family : String
deriving DecidableEq

/-- the per-record body of the `enrich_with_family` loop: the `dict(e)`
copy plus `fam if fam else "Unknown"` (Python's `or`-style truthiness
makes an empty-string family fall back to "Unknown" as well) -/
def withFamily (registry : String → Option String) (e : Entry) : EntryF :=
  { toEntry := e
    family :=
      match registry e.tag with
      | some f => if f = "" then "Unknown" else f
      | none => "Unknown" }

/-- `enrich_with_family`: copies each record and attaches
`fam if fam else "Unknown"` -/
def enrich_with_family (entries : List Entry) (registry : String → Option String) :
    List EntryF :=
  entries.map (withFamily registry)

/-- Python string comparison `a < b`: lexicographic by code point, a
proper prefix comparing smaller -/
def strLtB : List Char → List Char → Bool
  | [], [] => false
  | [], _ :: _ => true
  | _ :: _, [] => false
  | a :: as, b :: bs => if a < b then true else if b < a then false else strLtB as bs

/-- Python `a < b` on strings -/
def pyStrLt (a b : String) : Prop := strLtB a.data b.data = true

/-- Python `a <= b` on strings (the negation of the reversed `<` in this
total order) -/
def pyStrLe (a b : String) : Prop := strLtB b.data a.data = false

instance : DecidableRel pyStrLt := fun a b =>
  inferInstanceAs (Decidable (strLtB a.data b.data = true))

instance : DecidableRel pyStrLe := fun a b =>
  inferInstanceAs (Decidable (strLtB b.data a.data = false))

/-- the unknown-tag diagnostic of `main`:
`sorted(set(e.tag for e in enriched if e.family == "Unknown"))` (the
`dedup` removes duplicates; since the result is sorted afterwards, which
duplicate survives is irrelevant) -/
def unclassifiedTags (enriched : List EntryF) : List String :=
  ((((enriched.filter (fun e => e.family == "Unknown")).map (fun e => e.tag)).dedup).insertionSort
    pyStrLe)

/-- a default record, used only as the (unreachable) `headD` fallback when
rendering a group that the construction guarantees nonempty -/
def dEntryF : EntryF := ⟨⟨"", "", "", "", "", "", ""⟩, ""⟩

/-- the sort key of `format_markdown`: the `(e["date"], e["ver"])` tuple -/
def entryKey (e : EntryF) : String × String := (e.date, e.ver)

/-- Python tuple comparison `a <= b` on two string pairs -/
def keyLe (a b : String × String) : Prop :=
  pyStrLt a.1 b.1 ∨ (a.1 = b.1 ∧ pyStrLe a.2 b.2)

instance : DecidableRel keyLe := fun a b =>
  inferInstanceAs (Decidable (pyStrLt a.1 b.1 ∨ (a.1 = b.1 ∧ pyStrLe a.2 b.2)))

/-- descending key comparison, `sorted(..., reverse=True)` -/
def keyGe (a b : String × String) : Prop := keyLe b a

instance : DecidableRel keyGe := fun a b => inferInstanceAs (Decidable (keyLe b a))

/-- the record comparison of `entries.sort(key=..., reverse=True)` -/
def entGe (a b : EntryF) : Prop := keyLe (entryKey b) (entryKey a)

instance : DecidableRel entGe := fun a b =>
  inferInstanceAs (Decidable (keyLe (entryKey b) (entryKey a)))

/-- the in-place `entries.sort(key=lambda e: (e["date"], e["ver"]),
reverse=True)`: Python `list.sort` is stable, as is `insertionSort`, so
they produce the same list -/
def sortEntriesDesc (l : List EntryF) : List EntryF := l.insertionSort entGe

/-- the ordered group keys of `format_markdown`: the distinct
`(date, ver)` keys of the sorted entries, iterated in the order of
`sorted(groups.items(), reverse=True)` -/
def mdKeys (l : List EntryF) : List (String × String) :=
  (((sortEntriesDesc l).map entryKey).dedup).insertionSort keyGe

/-- the group heading line of `format_markdown` -/
def mdHeader (k : String × String) (items : List EntryF) : String :=
  let title := (items.headD dEntryF).«section»
  if items.any (fun it => it.«section» != title) then
    "## " ++ k.1 ++ " — v" ++ k.2 ++ " — Section updates"
  else
    "## " ++ k.1 ++ " — v" ++ k.2 ++ " — Section updates: " ++ title

/-- one record line of `format_markdown` -/
def mdLine (it : EntryF) : String :=
  let layer_tag :=
    if it.layer = "" then "[" ++ it.tag ++ "]"
    else "[" ++ it.layer ++ ":" ++ it.tag ++ "]"
  "- **" ++ layer_tag ++ "** (" ++ it.«section» ++ ") — " ++ it.note

/-- `format_markdown`: returns the rendered markdown together with the
state of the entries list after the call (the Python function sorts the
list it was given in place; on the empty list it returns before sorting) -/
def format_markdown (entries : List EntryF) : String × List EntryF :=
  if entries.isEmpty then ("[info] no matching tags found.", entries)
  else
    let sorted := sortEntriesDesc entries
    let chunks := (mdKeys entries).flatMap fun k =>
      let items := sorted.filter (fun e => decide (entryKey e = k))
      (mdHeader k items :: items.map mdLine) ++ ["\n---\n"]
    (String.mk (pyStrip (String.intercalate "\n" chunks).toList), sorted)

/-- `json_grouped`: the grouped structured projection, as the list of
records sharing the chosen key value -/
def json_grouped (entries : List EntryF) (key : EntryF → String) (v : String) :
    List EntryF :=
  entries.filter (fun e => key e == v)

/-! ### Order properties of the string comparison and the compound key -/

theorem strLtB_irrefl : ∀ l : List Char, strLtB l l = false := by
  intro l
  induction l with
  | nil => rfl
  | cons c cs ih => simp [strLtB, ih]

theorem strLtB_trans : ∀ {a b c : List Char},
    strLtB a b = true → strLtB b c = true → strLtB a c = true := by
  intro a
  induction a with
  | nil =>
    intro b c h1 h2
    cases b with
    | nil => cases h1
    | cons y ys =>
      cases c with
      | nil => cases h2
      | cons z zs => rfl
  | cons x xs ih =>
    intro b c h1 h2
    cases b with
    | nil => cases h1
    | cons y ys =>
      cases c with
      | nil => cases h2
      | cons z zs =>
        simp only [strLtB] at h1 h2 ⊢
        by_cases hxy : x < y
        · by_cases hyz : y < z
          · simp [lt_trans hxy hyz]
          · by_cases hzy : z < y
            · simp [strLtB, hyz, hzy] at h2
            · have hyzeq : y = z := le_antisymm (not_lt.mp hzy) (not_lt.mp hyz)
              subst hyzeq
              simp [hxy]
        · by_cases hyx : y < x
          · simp [hxy, hyx] at h1
          · have hxyeq : x = y := le_antisymm (not_lt.mp hyx) (not_lt.mp hxy)
            subst hxyeq
            simp only [lt_self_iff_false, if_false, ite_false] at h1
            by_cases hyz : x < z
            · simp [hyz]
            · by_cases hzy : z < x
              · simp [hyz, hzy] at h2
              · simp only [hyz, hzy, if_false, ite_false] at h2 ⊢
                simp [ih h1 h2]

theorem strLtB_conn : ∀ {a b : List Char},
    strLtB a b = false → strLtB b a = false → a = b := by
  intro a
  induction a with
  | nil =>
    intro b h1 _
    cases b with
    | nil => rfl
    | cons y ys => cases h1
  | cons x xs ih =>
    intro b h1 h2
    cases b with
    | nil => cases h2
    | cons y ys =>
      simp only [strLtB] at h1 h2
      by_cases hxy : x < y
      · simp [hxy] at h1
      · by_cases hyx : y < x
        · simp [hxy, hyx] at h2
        · have hxyeq : x = y := le_antisymm (not_lt.mp hyx) (not_lt.mp hxy)
          subst hxyeq
          simp only [lt_self_iff_false, if_false, ite_false] at h1 h2
          rw [ih h1 h2]

theorem strLtB_asymm {a b : List Char} (h : strLtB a b = true) : strLtB b a = false := by
  cases hba : strLtB b a with
  | false => rfl
  | true =>
    have := strLtB_trans h hba
    rw [strLtB_irrefl] at this
    cases this

theorem strLtB_le_trans {x y z : List Char} (h1 : strLtB y x = false)
    (h2 : strLtB z y = false) : strLtB z x = false := by
  cases hzx : strLtB z x with
  | false => rfl
  | true =>
    cases hyz : strLtB y z with
    | true =>
      rw [strLtB_trans hyz hzx] at h1
      cases h1
    | false =>
      have heq : y = z := strLtB_conn hyz h2
      rw [← heq] at hzx
      rw [hzx] at h1
      cases h1

theorem pyStrLe_total (a b : String) : pyStrLe a b ∨ pyStrLe b a := by
  unfold pyStrLe
  cases h1 : strLtB b.data a.data with
  | false => exact Or.inl rfl
  | true => exact Or.inr (strLtB_asymm h1)

theorem string_eq_of_data_eq {a b : String} (h : a.data = b.data) : a = b := by
  cases a
  cases b
  exact congrArg String.mk h

theorem keyLe_total (a b : String × String) : keyLe a b ∨ keyLe b a := by
  unfold keyLe pyStrLt
  cases h1 : strLtB a.1.data b.1.data with
  | true => exact Or.inl (Or.inl rfl)
  | false =>
    cases h2 : strLtB b.1.data a.1.data with
    | true => exact Or.inr (Or.inl rfl)
    | false =>
      have heq : a.1 = b.1 := string_eq_of_data_eq (strLtB_conn h1 h2)
      rcases pyStrLe_total a.2 b.2 with h3 | h3
      · exact Or.inl (Or.inr ⟨heq, h3⟩)
      · exact Or.inr (Or.inr ⟨heq.symm, h3⟩)

theorem keyLe_trans {a b c : String × String} (h1 : keyLe a b) (h2 : keyLe b c) :
    keyLe a c := by
  rcases h1 with h1 | ⟨e1, l1⟩
  · rcases h2 with h2 | ⟨e2, _⟩
    · exact Or.inl (strLtB_trans h1 h2)
    · exact Or.inl (e2 ▸ h1)
  · rcases h2 with h2 | ⟨e2, l2⟩
    · exact Or.inl (e1 ▸ h2)
    · exact Or.inr ⟨e1.trans e2, strLtB_le_trans l1 l2⟩

instance : IsTotal (String × String) keyGe := ⟨fun a b => keyLe_total b a⟩

instance : IsTrans (String × String) keyGe :=
  ⟨fun _ _ _ h1 h2 => keyLe_trans h2 h1⟩

instance : IsTotal EntryF entGe := ⟨fun a b => keyLe_total (entryKey b) (entryKey a)⟩

instance : IsTrans EntryF entGe :=
  ⟨fun _ _ _ h1 h2 => keyLe_trans h2 h1⟩

instance : IsTotal String pyStrLe := ⟨pyStrLe_total⟩

instance : IsTrans String pyStrLe :=
  ⟨fun _ _ _ h1 h2 => strLtB_le_trans h1 h2⟩

/-! ### C3 -/

/-- C3: registry composition is an overlay in which external entries
strictly win: a tag present in the external mapping resolves to its
external family regardless of the built-in entry, and a tag absent from
the external mapping resolves to its built-in entry. -/
theorem C3_registry_overlay (ext : String → Option String) (t : String) :
    (∀ f, ext t = some f → get_registry ext t = some f) ∧
    (ext t = none → get_registry ext t = builtinGet t) := by
  constructor
  · intro f h
    simp [get_registry, h]
  · intro h
    simp [get_registry, h]

/-- an external mapping holding only `GLYPH`, overriding its built-in
`Structural` family -/
def extGlyph : String → Option String := updMap (fun _ => none) "GLYPH" "Process"

theorem C3_registry_overlay_witness :
    get_registry extGlyph "GLYPH" = some "Process" ∧
    get_registry extGlyph "NODE" = builtinGet "NODE" :=
  ⟨(C3_registry_overlay extGlyph "GLYPH").1 "Process" (by decide),
   (C3_registry_overlay extGlyph "NODE").2 (by decide)⟩

/-! ### C5 -/

/-- C5: the narrative projection applied to the empty record list returns
the fixed no-matches message, which is not the empty string (and the
rendering is a total function, so it cannot fail). -/
theorem C5_empty_fixed_message :
    (format_markdown []).1 = "[info] no matching tags found." ∧
    (format_markdown []).1 ≠ "" := by
  refine ⟨rfl, ?_⟩
  decide

/-! ### C1 -/

/-- first record of the C1 counterexample list (older key, listed first) -/
def ce1 : EntryF := ⟨⟨"f", "S", "", "AAA", "2024-01-01", "1.0.0", "n"⟩, "Unknown"⟩

/-- second record of the C1 counterexample list (newer key, listed last) -/
def ce2 : EntryF := ⟨⟨"f", "S", "", "BBB", "2024-06-01", "2.0.0", "n"⟩, "Unknown"⟩

/-- C1 counterexample: the narrative renderer does not leave the record
list it was given unchanged — on `[ce1, ce2]` the in-place descending sort
reorders the list to `[ce2, ce1]`. -/
theorem C1_counterexample : (format_markdown [ce1, ce2]).2 ≠ [ce1, ce2] := by
  decide

/-- C1 amended: calling the narrative renderer keeps exactly the records
of the list it was given (the resulting list is a permutation of it) but
not their order: the list is left sorted descending by the compound
(date, version) key, so the original unsorted order survives only on the
raw-projection code path, which runs instead of (never after) the
narrative renderer. -/
theorem C1_sort_in_place (l : List EntryF) :
    ((format_markdown l).2).Perm l ∧ ((format_markdown l).2).Sorted entGe := by
  by_cases h : l.isEmpty
  · rw [List.isEmpty_iff] at h
    subst h
    exact ⟨List.Perm.refl _, List.sorted_nil⟩
  · have h2 : (format_markdown l).2 = sortEntriesDesc l := by
      simp [format_markdown, h]
    rw [h2]
    exact ⟨List.perm_insertionSort entGe l, List.sorted_insertionSort entGe l⟩

/-! ### C6 -/

/-- first record of the C6 instance (date 2024-01-01, version 1.0.0) -/
def c6a : EntryF := ⟨⟨"f", "S1", "", "AAA", "2024-01-01", "1.0.0", "n1"⟩, "Unknown"⟩

/-- second record of the C6 instance (date 2024-06-01, version 2.0.0) -/
def c6b : EntryF := ⟨⟨"f", "S2", "", "BBB", "2024-06-01", "2.0.0", "n2"⟩, "Unknown"⟩

/-- C6: for every non-empty record list the narrative projection iterates
its groups in strictly descending order of the compound (date, version)
string key, and on the concrete records with keys (2024-01-01, 1.0.0) and
(2024-06-01, 2.0.0) the newer group comes first. -/
theorem C6_groups_descending :
    (∀ l : List EntryF, l ≠ [] →
      (mdKeys l).Pairwise (fun a b => keyGe a b ∧ a ≠ b)) ∧
    mdKeys [c6a, c6b] = [("2024-06-01", "2.0.0"), ("2024-01-01", "1.0.0")] := by
  constructor
  · intro l _
    have hs : (mdKeys l).Sorted keyGe :=
      List.sorted_insertionSort keyGe (((sortEntriesDesc l).map entryKey).dedup)
    have hn : (mdKeys l).Nodup :=
      ((List.perm_insertionSort keyGe
        (((sortEntriesDesc l).map entryKey).dedup)).nodup_iff).mpr
        (List.nodup_dedup _)
    exact List.Pairwise.and hs hn
  · decide

theorem C6_groups_descending_witness :
    ([c6a, c6b] : List EntryF) ≠ [] ∧
    (mdKeys [c6a, c6b]).Pairwise (fun a b => keyGe a b ∧ a ≠ b) :=
  ⟨by decide, C6_groups_descending.1 [c6a, c6b] (by decide)⟩

/-! ### Helper lemmas about registry values and token shapes -/

theorem takeWhile1_some {p : Char → Bool} {cs t r : List Char}
    (h : takeWhile1 p cs = some (t, r)) :
    cs = t ++ r ∧ t ≠ [] ∧ (∀ c ∈ t, p c = true) ∧
      ∀ c cs2, r = c :: cs2 → p c = false := by
  unfold takeWhile1 at h
  split at h
  · cases h
  · rename_i hne
    have h1 : cs.takeWhile p = t ∧ cs.dropWhile p = r := by
      injection h with h2
      exact ⟨congrArg Prod.fst h2, congrArg Prod.snd h2⟩
    obtain ⟨ht, hr⟩ := h1
    subst ht
    subst hr
    refine ⟨(List.takeWhile_append_dropWhile p cs).symm, ?_, ?_, ?_⟩
    · intro he
      rw [he] at hne
      exact hne rfl
    · intro c hc
      exact List.mem_takeWhile_imp hc
    · intro c cs2 hc
      have := List.head?_dropWhile_not p cs
      rw [hc] at this
      exact this

theorem mem_snd_of_lookup {l : List (String × String)} {k v : String}
    (h : l.lookup k = some v) : v ∈ l.map Prod.snd := by
  induction l with
  | nil => cases h
  | cons kv rest ih =>
    obtain ⟨a, b⟩ := kv
    rw [List.lookup] at h
    split at h
    · injection h with h2
      subst h2
      simp
    · simp only [List.map_cons, List.mem_cons]
      exact Or.inr (ih h)

theorem builtinGet_mem {t f : String} (h : builtinGet t = some f) : f ∈ familyNames := by
  have hm := mem_snd_of_lookup h
  have hall : ∀ x ∈ BUILTIN_REGISTRY.map Prod.snd, x ∈ familyNames := by decide
  exact hall f hm

theorem headingFamily_mem {h : String} {f : String} (hf : headingFamily h = some f) :
    f ∈ familyNames := by
  unfold headingFamily at hf
  cases hfind : family_map.find? (fun kv => containsSub h kv.1) with
  | none => rw [hfind] at hf; cases hf
  | some kv =>
    rw [hfind] at hf
    injection hf with hf2
    subst hf2
    have hmem := List.mem_of_find?_eq_some hfind
    have hall : ∀ x ∈ family_map, x.2 ∈ familyNames := by decide
    exact hall kv hmem

/-- shape of the tokens captured by the two external-registry patterns:
one `[A-Z]` char followed by at least one `[A-Z0-9_]` char -/
def tokShape : List Char → Prop
  | [] => False
  | c :: rest => isAsciiUpper c = true ∧ rest ≠ [] ∧ ∀ x ∈ rest, isRegTokChar x = true

theorem tableTok_shape {h t : List Char} (ht : tableTok h = some t) : tokShape t := by
  unfold tableTok at ht
  cases h0 : eatChar '|' h with
  | none => rw [h0] at ht; cases ht
  | some r1 =>
    rw [h0] at ht
    simp only [] at ht
    cases h2 : r1.dropWhile isPySpace with
    | nil => rw [h2] at ht; cases ht
    | cons c r3 =>
      rw [h2] at ht
      simp only [] at ht
      by_cases hu : isAsciiUpper c = true
      · rw [if_pos hu] at ht
        cases h3 : takeWhile1 isRegTokChar r3 with
        | none => rw [h3] at ht; cases ht
        | some tr =>
          obtain ⟨t2, r4⟩ := tr
          rw [h3] at ht
          simp only [] at ht
          cases h4 : eatChar '|' (r4.dropWhile isPySpace) with
          | none => rw [h4] at ht; cases ht
          | some r5 =>
            rw [h4] at ht
            simp only [] at ht
            injection ht with ht2
            subst ht2
            obtain ⟨_, hne, hall, _⟩ := takeWhile1_some h3
            exact ⟨hu, hne, hall⟩
      · rw [if_neg hu] at ht
        cases ht

theorem bracketTokAt_shape {cs t : List Char} (ht : bracketTokAt cs = some t) :
    tokShape t := by
  unfold bracketTokAt at ht
  cases cs with
  | nil => cases ht
  | cons b cs1 =>
    cases cs1 with
    | nil => cases ht
    | cons c rest =>
      simp only [] at ht
      by_cases hb : b = '['
      · rw [if_pos hb] at ht
        by_cases hu : isAsciiUpper c = true
        · rw [if_pos hu] at ht
          cases h3 : takeWhile1 isRegTokChar rest with
          | none => rw [h3] at ht; cases ht
          | some tr =>
            obtain ⟨t2, r⟩ := tr
            rw [h3] at ht
            simp only [] at ht
            cases r with
            | nil => cases ht
            | cons r0 r2 =>
              simp only [] at ht
              by_cases hr : r0 = ']'
              · rw [if_pos hr] at ht
                injection ht with ht2
                subst ht2
                obtain ⟨_, hne, hall, _⟩ := takeWhile1_some h3
                exact ⟨hu, hne, hall⟩
              · rw [if_neg hr] at ht
                cases ht
        · rw [if_neg hu] at ht
          cases ht
      · rw [if_neg hb] at ht
        cases ht

theorem bracketSearch_shape {cs t : List Char} (ht : bracketSearch cs = some t) :
    tokShape t := by
  induction cs with
  | nil => cases ht
  | cons c rest ih =>
    rw [bracketSearch] at ht
    cases h0 : bracketTokAt (c :: rest) with
    | some t2 =>
      rw [h0] at ht
      injection ht with ht2
      subst ht2
      exact bracketTokAt_shape h0
    | none =>
      rw [h0] at ht
      exact ih ht

theorem toUpper_of_not_lower {c : Char} (h : (97 ≤ c.toNat ∧ c.toNat ≤ 122) → False) :
    c.toUpper = c := by
  unfold Char.toUpper
  rw [if_neg h]

theorem tokShape_chars_fixed {c : Char} (h : isAsciiUpper c = true ∨ isRegTokChar c = true) :
    c.toUpper = c := by
  apply toUpper_of_not_lower
  intro ⟨h1, _⟩
  have hlt : c.toNat ≤ 95 := by
    rcases h with h | h
    · have h2 := (Bool.and_eq_true _ _).mp h
      have : c ≤ 'Z' := of_decide_eq_true h2.2
      have : c.toNat ≤ 90 := this
      omega
    · unfold isRegTokChar at h
      rcases (Bool.or_eq_true _ _).mp h with h | h
      · rcases (Bool.or_eq_true _ _).mp h with h | h
        · have h2 := (Bool.and_eq_true _ _).mp h
          have : c ≤ 'Z' := of_decide_eq_true h2.2
          have : c.toNat ≤ 90 := this
          omega
        · have h2 := (Bool.and_eq_true _ _).mp h
          have : c ≤ '9' := of_decide_eq_true h2.2
          have : c.toNat ≤ 57 := this
          omega
      · have : c = '_' := of_decide_eq_true h
        subst this
        decide
  omega

theorem pyToUpper_of_tokShape {t : List Char} (h : tokShape t) : pyToUpper t = t := by
  cases t with
  | nil => cases h
  | cons c rest =>
    obtain ⟨hu, _, hall⟩ := h
    unfold pyToUpper
    rw [List.map_cons]
    rw [tokShape_chars_fixed (Or.inl hu)]
    congr 1
    have : ∀ x ∈ rest, Char.toUpper x = x := fun x hx =>
      tokShape_chars_fixed (Or.inr (hall x hx))
    calc rest.map Char.toUpper = rest.map id := List.map_congr_left this
    _ = rest := List.map_id rest

/-- the invariant of the `load_registry_from_md` loop: the current family
and every family recorded so far are taxonomy names, and every recorded
tag has the captured token shape -/
def regInv (st : RegState) : Prop :=
  (∀ f, st.curFam = some f → f ∈ familyNames) ∧
  (∀ t f, st.tagMap t = some f → f ∈ familyNames ∧ tokShape t.data)

theorem headingUpdate_mem {cur : Option String} {h : String}
    (hc : ∀ f, cur = some f → f ∈ familyNames) :
    ∀ f, headingUpdate cur h = some f → f ∈ familyNames := by
  intro f hf
  unfold headingUpdate at hf
  cases hh : headingFamily h with
  | some f2 =>
    rw [hh] at hf
    injection hf with h2
    subst h2
    exact headingFamily_mem hh
  | none =>
    rw [hh] at hf
    exact hc f hf

theorem updMap_cases {m : String → Option String} {k v t f : String}
    (h : updMap m k v t = some f) : (t = k ∧ f = v) ∨ (t ≠ k ∧ m t = some f) := by
  unfold updMap at h
  by_cases hteq : t = k
  · rw [if_pos hteq] at h
    injection h with h2
    exact Or.inl ⟨hteq, h2.symm⟩
  · rw [if_neg hteq] at h
    exact Or.inr ⟨hteq, h⟩

theorem regInv_step {st : RegState} (hinv : regInv st) (line : String) :
    regInv (regStep st line) := by
  obtain ⟨hfam, hmap⟩ := hinv
  unfold regStep
  cases hp : "## ".data.isPrefixOf (stripLine line).data with
  | true => exact ⟨headingUpdate_mem hfam, hmap⟩
  | false =>
    cases hcf : st.curFam with
    | none => exact ⟨hfam, hmap⟩
    | some fam =>
      cases htb : tableTok (stripLine line).data with
      | some tok =>
        refine ⟨?_, ?_⟩
        · intro f hf
          have hf2 : some fam = some f := hf
          injection hf2 with hf3
          exact hf3 ▸ hfam fam hcf
        · intro t f hf
          have hf2 : updMap st.tagMap (String.mk (pyToUpper tok)) fam t = some f := hf
          rcases updMap_cases hf2 with ⟨hteq, hfv⟩ | ⟨_, hm⟩
          · refine ⟨?_, ?_⟩
            · rw [hfv]
              exact hfam fam hcf
            · rw [hteq]
              have hshape := tableTok_shape htb
              show tokShape (pyToUpper tok)
              rw [pyToUpper_of_tokShape hshape]
              exact hshape
          · exact hmap t f hm
      | none =>
        cases hbr : bracketSearch (stripLine line).data with
        | some tok =>
          refine ⟨?_, ?_⟩
          · intro f hf
            have hf2 : some fam = some f := hf
            injection hf2 with hf3
            exact hf3 ▸ hfam fam hcf
          · intro t f hf
            have hf2 : updMap st.tagMap (String.mk (pyToUpper tok)) fam t = some f := hf
            rcases updMap_cases hf2 with ⟨hteq, hfv⟩ | ⟨_, hm⟩
            · refine ⟨?_, ?_⟩
              · rw [hfv]
                exact hfam fam hcf
              · rw [hteq]
                have hshape := bracketSearch_shape hbr
                show tokShape (pyToUpper tok)
                rw [pyToUpper_of_tokShape hshape]
                exact hshape
            · exact hmap t f hm
        | none => exact ⟨hfam, hmap⟩

theorem regInv_foldl (lines : List String) (st : RegState) (hinv : regInv st) :
    regInv (lines.foldl regStep st) := by
  induction lines generalizing st with
  | nil => exact hinv
  | cons l rest ih => exact ih (regStep st l) (regInv_step hinv l)

theorem load_registry_values {lines : List String} {t f : String}
    (h : load_registry_from_md lines t = some f) :
    f ∈ familyNames ∧ tokShape t.data := by
  have hinv0 : regInv ⟨none, fun _ => none⟩ := by
    constructor
    · intro f2 hf
      cases hf
    · intro t2 f2 hf
      cases hf
  have hinv := regInv_foldl lines _ hinv0
  exact hinv.2 t f h

theorem get_registry_values {ext : String → Option String} {t f : String}
    (hext : ∀ t2 f2, ext t2 = some f2 → f2 ∈ familyNames)
    (h : get_registry ext t = some f) : f ∈ familyNames := by
  unfold get_registry at h
  cases he : ext t with
  | some f2 =>
    rw [he] at h
    injection h with h2
    subst h2
    exact hext t f2 he
  | none =>
    rw [he] at h
    exact builtinGet_mem h

theorem resolved_values {extLines : List String} {t f : String}
    (h : get_registry (load_registry_from_md extLines) t = some f) : f ∈ familyNames :=
  get_registry_values (fun _ _ h2 => (load_registry_values h2).1) h

theorem withFamily_spec {reg : String → Option String}
    (hvals : ∀ t2 f2, reg t2 = some f2 → f2 ∈ familyNames) (e : Entry) :
    ((withFamily reg e).family ∈ familyNames ∨ (withFamily reg e).family = "Unknown") ∧
    ((withFamily reg e).family = "Unknown" ↔ reg e.tag = none) := by
  unfold withFamily
  cases hreg : reg e.tag with
  | none => simp [hreg]
  | some f =>
    have hf := hvals e.tag f hreg
    have hne : f ≠ "" := by
      have hh : ∀ x ∈ familyNames, x ≠ "" := by decide
      exact hh f hf
    have hnu : f ≠ "Unknown" := by
      have hh : ∀ x ∈ familyNames, x ≠ "Unknown" := by decide
      exact hh f hf
    simp only [hreg, if_neg hne]
    refine ⟨Or.inl hf, ?_, ?_⟩
    · intro hu
      exact absurd hu hnu
    · intro hn
      cases hn

theorem withFamily_unknown {reg : String → Option String} {e : Entry}
    (h : reg e.tag = none) : (withFamily reg e).family = "Unknown" := by
  unfold withFamily
  simp only [h]

/-! ### C4 -/

/-- C4: classification is total: each record in the classified list
carries a family that is either one of the five taxonomy names or the
literal "Unknown", and it is "Unknown" exactly when the record's tag is
absent from the resolved registry (built-in overlaid with any mapping the
external-registry parser can produce). -/
theorem C4_classification_total (entries : List Entry) (extLines : List String) :
    ∀ e ∈ enrich_with_family entries (get_registry (load_registry_from_md extLines)),
      (e.family ∈ familyNames ∨ e.family = "Unknown") ∧
      (e.family = "Unknown" ↔
        get_registry (load_registry_from_md extLines) e.tag = none) := by
  intro e he
  unfold enrich_with_family at he
  rw [List.mem_map] at he
  obtain ⟨e0, _, rfl⟩ := he
  exact withFamily_spec (fun _ _ h2 => resolved_values h2) e0

/-- the concrete record of the C4 witness -/
def entGly : Entry := ⟨"f.tex", "Origins", "ONTO", "GLYPH", "2024-01-01", "1.0.0", "note"⟩

theorem C4_classification_total_witness :
    (((withFamily (get_registry (load_registry_from_md [])) entGly).family ∈ familyNames ∨
      (withFamily (get_registry (load_registry_from_md [])) entGly).family = "Unknown") ∧
    ((withFamily (get_registry (load_registry_from_md [])) entGly).family = "Unknown" ↔
      get_registry (load_registry_from_md [])
        (withFamily (get_registry (load_registry_from_md [])) entGly).tag = none)) :=
  C4_classification_total [entGly] []
    (withFamily (get_registry (load_registry_from_md [])) entGly) (by decide)

/-! ### C9 -/

/-- C9: a tag absent from the resolved registry classifies every record
carrying it to family "Unknown", and the unclassified-tags diagnostic is a
sorted duplicate-free list containing exactly the tags of records whose
tag is absent from the registry — so a tag occurring in several records
appears in the diagnostic exactly once. -/
theorem C9_unknown_diagnostic (entries : List Entry) (extLines : List String) :
    (unclassifiedTags (enrich_with_family entries
        (get_registry (load_registry_from_md extLines)))).Nodup ∧
    (unclassifiedTags (enrich_with_family entries
        (get_registry (load_registry_from_md extLines)))).Sorted pyStrLe ∧
    (∀ t, t ∈ unclassifiedTags (enrich_with_family entries
        (get_registry (load_registry_from_md extLines))) ↔
      ((∃ e ∈ entries, e.tag = t) ∧
        get_registry (load_registry_from_md extLines) t = none)) ∧
    ∀ t, get_registry (load_registry_from_md extLines) t = none →
      (∃ e ∈ entries, e.tag = t) →
      (unclassifiedTags (enrich_with_family entries
        (get_registry (load_registry_from_md extLines)))).count t = 1 := by
  have hvals : ∀ t2 f2,
      get_registry (load_registry_from_md extLines) t2 = some f2 → f2 ∈ familyNames :=
    fun _ _ h2 => resolved_values h2
  have hnodup : (unclassifiedTags (enrich_with_family entries
      (get_registry (load_registry_from_md extLines)))).Nodup := by
    unfold unclassifiedTags
    exact ((List.perm_insertionSort pyStrLe _).nodup_iff).mpr (List.nodup_dedup _)
  have hmem : ∀ t, t ∈ unclassifiedTags (enrich_with_family entries
      (get_registry (load_registry_from_md extLines))) ↔
      ((∃ e ∈ entries, e.tag = t) ∧
        get_registry (load_registry_from_md extLines) t = none) := by
    intro t
    unfold unclassifiedTags
    rw [List.mem_insertionSort, List.mem_dedup, List.mem_map]
    constructor
    · rintro ⟨eF, hFmem, rfl⟩
      rw [List.mem_filter] at hFmem
      obtain ⟨hFin, hFu⟩ := hFmem
      unfold enrich_with_family at hFin
      rw [List.mem_map] at hFin
      obtain ⟨e0, he0, rfl⟩ := hFin
      have hu : (withFamily (get_registry (load_registry_from_md extLines)) e0).family =
          "Unknown" := by
        exact beq_iff_eq.mp hFu
      have hnone := ((withFamily_spec hvals e0).2).mp hu
      exact ⟨⟨e0, he0, rfl⟩, hnone⟩
    · rintro ⟨⟨e0, he0, rfl⟩, hnone⟩
      refine ⟨withFamily (get_registry (load_registry_from_md extLines)) e0, ?_, rfl⟩
      rw [List.mem_filter]
      constructor
      · unfold enrich_with_family
        rw [List.mem_map]
        exact ⟨e0, he0, rfl⟩
      · exact beq_iff_eq.mpr (withFamily_unknown hnone)
  refine ⟨hnodup, ?_, hmem, ?_⟩
  · exact List.sorted_insertionSort pyStrLe _
  · intro t hreg hex
    exact List.count_eq_one_of_mem hnodup ((hmem t).mpr ⟨hex, hreg⟩)

/-- first concrete record of the C9 witness (unknown tag, occurrence 1) -/
def entZ1 : Entry := ⟨"a.tex", "S1", "", "ZZZTOP", "2024-01-01", "1.0.0", "n1"⟩

/-- second concrete record of the C9 witness (same unknown tag again) -/
def entZ2 : Entry := ⟨"b.tex", "S2", "EPI", "ZZZTOP", "2024-02-01", "1.1.0", "n2"⟩

theorem C9_unknown_diagnostic_witness :
    (unclassifiedTags (enrich_with_family [entZ1, entZ2]
      (get_registry (load_registry_from_md [])))).count "ZZZTOP" = 1 :=
  (C9_unknown_diagnostic [entZ1, entZ2] []).2.2.2 "ZZZTOP" (by decide)
    ⟨entZ1, by decide, by decide⟩

/-! ### C10 -/

/-- C10: every tag the external-registry parser records has the shape of
an uppercase letter followed by at least one uppercase letter, digit or
underscore; consequently a tag containing a hyphen, tilde or wave symbol,
or consisting of a single character, is never present in the external
mapping, so the resolved registry answers for it exactly what the
built-in registry answers (built-in family or, at classification time,
"Unknown"). -/
theorem C10_external_token_shape (lines : List String) (t : String) :
    ((load_registry_from_md lines t).isSome → tokShape t.data) ∧
    (('-' ∈ t.data ∨ '~' ∈ t.data ∨ '∿' ∈ t.data ∨ t.data.length = 1) →
      get_registry (load_registry_from_md lines) t = builtinGet t) := by
  have hshape : (load_registry_from_md lines t).isSome → tokShape t.data := by
    intro h
    cases hl : load_registry_from_md lines t with
    | none =>
      rw [hl] at h
      cases h
    | some f => exact (load_registry_values hl).2
  refine ⟨hshape, ?_⟩
  intro hbad
  cases hl : load_registry_from_md lines t with
  | none =>
    unfold get_registry
    rw [hl]
  | some f =>
    exfalso
    have hs := (load_registry_values hl).2
    cases hd : t.data with
    | nil =>
      rw [hd] at hs
      exact hs
    | cons c rest =>
      rw [hd] at hs
      obtain ⟨hu, hne, hall⟩ := hs
      have hclassfree : ∀ x : Char, x ∈ c :: rest →
          isAsciiUpper x = true ∨ isRegTokChar x = true := by
        intro x hx
        cases hx with
        | head => exact Or.inl hu
        | tail _ hx2 => exact Or.inr (hall x hx2)
      rcases hbad with hb | hb | hb | hb
      · rw [hd] at hb
        rcases hclassfree '-' hb with h | h
        · exact absurd h (by decide)
        · exact absurd h (by decide)
      · rw [hd] at hb
        rcases hclassfree '~' hb with h | h
        · exact absurd h (by decide)
        · exact absurd h (by decide)
      · rw [hd] at hb
        rcases hclassfree '∿' hb with h | h
        · exact absurd h (by decide)
        · exact absurd h (by decide)
      · rw [hd] at hb
        rw [List.length_cons] at hb
        have : rest = [] := List.length_eq_zero.mp (by omega)
        exact hne this

/-! ### C2 -/

/-- a tracker state the scraper loop can actually be in: no ledger title
while outside a ledger, a nonempty ledger title while inside -/
def validState (s : ScanState) : Prop :=
  (s.inLedger = false → s.ledgerTitle = none) ∧
  (s.inLedger = true → ∃ ti, s.ledgerTitle = some ti ∧ ti ≠ "")

/-- a line the tracker consumes as a ledger delimiter (and `continue`s
before tag matching): header or footer-open while outside, close while
inside -/
def delimiterConsumed (s : ScanState) (line : List Char) : Prop :=
  match s.inLedger with
  | false => (hdrSearch line).isSome = true ∨ ftrMatch line = true
  | true => endMatch line = true

instance (s : ScanState) (line : List Char) : Decidable (delimiterConsumed s line) := by
  unfold delimiterConsumed
  cases s.inLedger with
  | false =>
    exact inferInstanceAs (Decidable ((hdrSearch line).isSome = true ∨ ftrMatch line = true))
  | true => exact inferInstanceAs (Decidable (endMatch line = true))

/-- the C2 counterexample line: a footer-open delimiter that also carries
a valid annotation on the same line -/
def c2line : List Char :=
  "\\begin\x7bSectionFooterLedger\x7d \\Tag\x7bSEED\x7d 2024-01-01 v1.0.0 — x".toList

/-- C2 counterexample: tag matching is not attempted on every line — on a
line that is both a footer-open delimiter and a valid annotation line, the
scraper (outside a ledger) consumes the delimiter and records nothing,
although the annotation pattern matches the line. -/
theorem C2_counterexample :
    (tagSearch c2line).isSome = true ∧ scrapeLines "f.tex" none [c2line] = [] := by
  constructor
  · decide
  · decide

/-- C2 amended: tag matching is attempted on every line except those the
tracker consumes as ledger delimiters (header/footer-open while outside, a
close while inside), and every tag matched on a non-delimiter line is
recorded with the currently applicable title context: the current ledger
title if inside a ledger, else the current section title if nonempty, else
the sentinel "(unknown section)". -/
theorem C2_tag_attribution (file : String) (sectionTitle : Option String)
    (s : ScanState) (line : List Char) (hval : validState s) :
    (delimiterConsumed s line → (stepLine file sectionTitle s line).2 = none) ∧
    (¬ delimiterConsumed s line →
      (stepLine file sectionTitle s line).2 = tagRecord file sectionTitle s line ∧
      ∀ e, tagRecord file sectionTitle s line = some e →
        e.«section» = (match s.ledgerTitle with
          | some ti => ti
          | none => pyOr sectionTitle sentinel)) := by
  obtain ⟨inL, lt⟩ := s
  obtain ⟨hval1, hval2⟩ := hval
  cases inL with
  | false =>
    have hltn : lt = none := hval1 rfl
    subst hltn
    constructor
    · intro hdel
      unfold delimiterConsumed at hdel
      simp only [] at hdel
      cases hh : hdrSearch line with
      | some ti => simp [stepLine, hh]
      | none =>
        rcases hdel with hdel | hdel
        · rw [hh] at hdel
          cases hdel
        · simp [stepLine, hh, hdel]
    · intro hdel
      unfold delimiterConsumed at hdel
      simp only [] at hdel
      push_neg at hdel
      obtain ⟨hh, hf⟩ := hdel
      have hhn : hdrSearch line = none := by
        cases hh2 : hdrSearch line with
        | none => rfl
        | some ti =>
          exfalso
          apply hh
          rw [hh2]
          rfl
      have hfn : ftrMatch line = false := by
        cases hf2 : ftrMatch line with
        | false => rfl
        | true => exact absurd hf2 hf
      constructor
      · simp [stepLine, hhn, hfn]
      · intro e he
        unfold tagRecord at he
        cases hg : tagSearch line with
        | none =>
          rw [hg] at he
          cases he
        | some g =>
          rw [hg] at he
          simp only [Option.map] at he
          injection he with he2
          rw [← he2]
          rfl
  | true =>
    obtain ⟨ti, hlt, hti⟩ := hval2 rfl
    subst hlt
    constructor
    · intro hdel
      unfold delimiterConsumed at hdel
      simp only [] at hdel
      simp [stepLine, hdel]
    · intro hdel
      unfold delimiterConsumed at hdel
      simp only [] at hdel
      have hen : endMatch line = false := by
        cases he2 : endMatch line with
        | false => rfl
        | true => exact absurd he2 hdel
      constructor
      · simp [stepLine, hen]
      · intro e he
        unfold tagRecord at he
        cases hg : tagSearch line with
        | none =>
          rw [hg] at he
          cases he
        | some g =>
          rw [hg] at he
          simp only [Option.map] at he
          injection he with he2
          rw [← he2]
          show pyOr (some ti) (pyOr sectionTitle sentinel) = ti
          simp [pyOr, hti]

/-- the C2 witness line: a plain annotation line, no delimiter on it -/
def c2tagline : List Char :=
  "\\Tag[ONTO]\x7bSEED\x7d 2024-03-01 v1.2.0 — Initial seed.".toList

theorem C2_tag_attribution_witness :
    ¬ delimiterConsumed ⟨true, some "Origins"⟩ c2tagline ∧
    ((stepLine "f.tex" none ⟨true, some "Origins"⟩ c2tagline).2 =
      tagRecord "f.tex" none ⟨true, some "Origins"⟩ c2tagline ∧
      ∀ e, tagRecord "f.tex" none ⟨true, some "Origins"⟩ c2tagline = some e →
        e.«section» = (match (⟨true, some "Origins"⟩ : ScanState).ledgerTitle with
          | some ti => ti
          | none => pyOr none sentinel)) :=
  by
  have hval : validState ⟨true, some "Origins"⟩ := by
    constructor
    · intro h
      cases h
    · intro _
      exact ⟨"Origins", rfl, by decide⟩
  have hnd : ¬ delimiterConsumed ⟨true, some "Origins"⟩ c2tagline := by decide
  exact ⟨hnd, (C2_tag_attribution "f.tex" none ⟨true, some "Origins"⟩ c2tagline hval).2 hnd⟩

/-! ### C7 -/

theorem tagRecord_outside_section {file : String} {secT : Option String}
    {l : List Char} {e : Entry}
    (h : tagRecord file secT ⟨false, none⟩ l = some e) :
    e.«section» = pyOr secT sentinel := by
  unfold tagRecord at h
  cases hg : tagSearch l with
  | none =>
    rw [hg] at h
    cases h
  | some g =>
    rw [hg] at h
    simp only [Option.map] at h
    injection h with h2
    rw [← h2]
    rfl

theorem scan_outside_no_open (file : String) (sectionTitle : Option String)
    (rest : List (List Char))
    (hopen : ∀ l ∈ rest, hdrSearch l = none ∧ ftrMatch l = false) :
    (∀ e ∈ (scanLines file sectionTitle ⟨false, none⟩ rest).1,
      e.«section» = pyOr sectionTitle sentinel) ∧
    (scanLines file sectionTitle ⟨false, none⟩ rest).2 = ⟨false, none⟩ := by
  induction rest with
  | nil => exact ⟨fun e he => absurd he (List.not_mem_nil e), rfl⟩
  | cons l ls ih =>
    have hl := hopen l (List.mem_cons_self l ls)
    have ihs := ih (fun l2 hl2 => hopen l2 (List.mem_cons_of_mem l hl2))
    have hstep : stepLine file sectionTitle ⟨false, none⟩ l =
        (⟨false, none⟩, tagRecord file sectionTitle ⟨false, none⟩ l) := by
      simp [stepLine, hl.1, hl.2]
    constructor
    · intro e he
      rw [scanLines] at he
      rw [hstep] at he
      simp only [] at he
      cases htr : tagRecord file sectionTitle ⟨false, none⟩ l with
      | none =>
        rw [htr] at he
        simp only [] at he
        exact ihs.1 e he
      | some e2 =>
        rw [htr] at he
        simp only [] at he
        rcases List.mem_cons.mp he with he | he
        · subst he
          exact tagRecord_outside_section htr
        · exact ihs.1 e he
    · rw [scanLines, hstep]
      simp only []
      exact ihs.2

/-- C7: once a ledger-close pattern is consumed, the tracker is outside
the ledger with the ledger title cleared, and as long as no later line
opens a ledger (header or footer-open), every record produced from the
later lines is attributed to the plain section context (section title or
the unknown sentinel), never to a ledger title. -/
theorem C7_close_clears_ledger (file : String) (sectionTitle : Option String)
    (t0 : Option String) (line : List Char) (rest : List (List Char))
    (hclose : endMatch line = true)
    (hopen : ∀ l ∈ rest, hdrSearch l = none ∧ ftrMatch l = false) :
    (∀ e ∈ (scanLines file sectionTitle ⟨true, t0⟩ (line :: rest)).1,
      e.«section» = pyOr sectionTitle sentinel) ∧
    (scanLines file sectionTitle ⟨true, t0⟩ (line :: rest)).2 = ⟨false, none⟩ := by
  have hstep : stepLine file sectionTitle ⟨true, t0⟩ line = (⟨false, none⟩, none) := by
    simp [stepLine, hclose]
  have hrest := scan_outside_no_open file sectionTitle rest hopen
  constructor
  · intro e he
    rw [scanLines] at he
    rw [hstep] at he
    simp only [] at he
    exact hrest.1 e he
  · rw [scanLines, hstep]
    simp only []
    exact hrest.2

/-- the C7 witness: a close line followed by an annotation line, scanned
from inside a ledger titled "Origins", with section title "Intro" -/
def c7close : List Char := "\\end\x7bSectionFooterLedger\x7d".toList

theorem C7_close_clears_ledger_witness :
    (∀ e ∈ (scanLines "f.tex" (some "Intro") ⟨true, some "Origins"⟩
        [c7close, c2tagline]).1,
      e.«section» = pyOr (some "Intro") sentinel) ∧
    (scanLines "f.tex" (some "Intro") ⟨true, some "Origins"⟩
        [c7close, c2tagline]).2 = ⟨false, none⟩ :=
  C7_close_clears_ledger "f.tex" (some "Intro") (some "Origins") c7close [c2tagline]
    (by decide) (by decide)

/-! ### C8: shape of the groups captured by `TAG_RE` -/

/-- the invariants every successful `TAG_RE` capture satisfies: the layer
(when present) is a nonempty run of ASCII letters, the tag a nonempty run
of tag chars, the date and version have their digit shapes, and the
narrative either starts with a non-whitespace char or is the single
whitespace char the backtracking engine handed back -/
def wfGroups (g : TagGroups) : Prop :=
  (∀ l, g.layer = some l → l ≠ [] ∧ ∀ c ∈ l, isAsciiAlpha c = true) ∧
  (g.tag ≠ [] ∧ ∀ c ∈ g.tag, isTagChar c = true) ∧
  (∃ a b c, g.date = a ++ '-' :: (b ++ '-' :: c) ∧
    a.length = 4 ∧ b.length = 2 ∧ c.length = 2 ∧
    (∀ x ∈ a, isAsciiDigit x = true) ∧ (∀ x ∈ b, isAsciiDigit x = true) ∧
    (∀ x ∈ c, isAsciiDigit x = true)) ∧
  (∃ a b c, g.ver = a ++ '.' :: (b ++ '.' :: c) ∧
    a ≠ [] ∧ b ≠ [] ∧ c ≠ [] ∧
    (∀ x ∈ a, isAsciiDigit x = true) ∧ (∀ x ∈ b, isAsciiDigit x = true) ∧
    (∀ x ∈ c, isAsciiDigit x = true)) ∧
  ((∃ c cs, g.narr = c :: cs ∧ isPySpace c = false) ∨
   (∃ c, isPySpace c = true ∧ g.narr = [c]))

theorem digit_not_space {c : Char} (h : isAsciiDigit c = true) : isPySpace c = false := by
  cases hp : isPySpace c with
  | false => rfl
  | true =>
    exfalso
    simp only [isPySpace, Bool.or_eq_true, beq_iff_eq] at hp
    rcases hp with ((((hp | hp) | hp) | hp) | hp) | hp <;> subst hp <;>
      exact absurd h (by decide)

theorem headNot_concrete {p : Char → Bool} {c0 : Char} {cs : List Char}
    (h : p c0 = false) : ∀ x cs2, c0 :: cs = x :: cs2 → p x = false := by
  intro x cs2 hx
  injection hx with h1 _
  rw [← h1]
  exact h

theorem all_single {p : Char → Bool} {c : Char} (h : p c = true) :
    ∀ x ∈ [c], p x = true := by
  intro x hx
  rw [List.mem_singleton] at hx
  rw [hx]
  exact h

theorem takeDigits_some : ∀ {n : Nat} {cs t r : List Char},
    takeDigits n cs = some (t, r) →
    cs = t ++ r ∧ t.length = n ∧ ∀ x ∈ t, isAsciiDigit x = true := by
  intro n
  induction n with
  | zero =>
    intro cs t r h
    unfold takeDigits at h
    injection h with h2
    injection h2 with h3 h4
    subst h3
    subst h4
    exact ⟨rfl, rfl, fun x hx => absurd hx (List.not_mem_nil x)⟩
  | succ n ih =>
    intro cs t r h
    cases cs with
    | nil => cases h
    | cons c cs2 =>
      unfold takeDigits at h
      by_cases hd : isAsciiDigit c = true
      · rw [if_pos hd] at h
        cases h3 : takeDigits n cs2 with
        | none =>
          rw [h3] at h
          cases h
        | some tr =>
          obtain ⟨t2, r2⟩ := tr
          rw [h3] at h
          simp only [Option.map] at h
          injection h with h2
          injection h2 with h4 h5
          subst h5
          obtain ⟨hcs, hlen, hdig⟩ := ih h3
          subst hcs
          rw [← h4]
          refine ⟨rfl, by rw [List.length_cons, hlen], ?_⟩
          intro x hx
          rcases List.mem_cons.mp hx with hx | hx
          · rw [hx]
            exact hd
          · exact hdig x hx
      · rw [if_neg hd] at h
        cases h

theorem matchDate_sound {cs d r : List Char} (h : matchDate cs = some (d, r)) :
    ∃ a b c, d = a ++ '-' :: (b ++ '-' :: c) ∧
      a.length = 4 ∧ b.length = 2 ∧ c.length = 2 ∧
      (∀ x ∈ a, isAsciiDigit x = true) ∧ (∀ x ∈ b, isAsciiDigit x = true) ∧
      (∀ x ∈ c, isAsciiDigit x = true) := by
  unfold matchDate at h
  cases h1 : takeDigits 4 cs with
  | none => rw [h1] at h; cases h
  | some tr1 =>
    obtain ⟨d1, r1⟩ := tr1
    rw [h1] at h
    simp only [] at h
    cases h2 : eatChar '-' r1 with
    | none => rw [h2] at h; cases h
    | some r2 =>
      rw [h2] at h
      simp only [] at h
      cases h3 : takeDigits 2 r2 with
      | none => rw [h3] at h; cases h
      | some tr2 =>
        obtain ⟨d2, r3⟩ := tr2
        rw [h3] at h
        simp only [] at h
        cases h4 : eatChar '-' r3 with
        | none => rw [h4] at h; cases h
        | some r4 =>
          rw [h4] at h
          simp only [] at h
          cases h5 : takeDigits 2 r4 with
          | none => rw [h5] at h; cases h
          | some tr3 =>
            obtain ⟨d3, r5⟩ := tr3
            rw [h5] at h
            simp only [] at h
            injection h with h6
            injection h6 with h7 h8
            obtain ⟨-, hl1, hd1⟩ := takeDigits_some h1
            obtain ⟨-, hl2, hd2⟩ := takeDigits_some h3
            obtain ⟨-, hl3, hd3⟩ := takeDigits_some h5
            exact ⟨d1, d2, d3, h7.symm, hl1, hl2, hl3, hd1, hd2, hd3⟩

theorem matchVer_sound {cs d r : List Char} (h : matchVer cs = some (d, r)) :
    ∃ a b c, d = a ++ '.' :: (b ++ '.' :: c) ∧
      a ≠ [] ∧ b ≠ [] ∧ c ≠ [] ∧
      (∀ x ∈ a, isAsciiDigit x = true) ∧ (∀ x ∈ b, isAsciiDigit x = true) ∧
      (∀ x ∈ c, isAsciiDigit x = true) := by
  unfold matchVer at h
  cases h1 : takeWhile1 isAsciiDigit cs with
  | none => rw [h1] at h; cases h
  | some tr1 =>
    obtain ⟨v1, r1⟩ := tr1
    rw [h1] at h
    simp only [] at h
    cases h2 : eatChar '.' r1 with
    | none => rw [h2] at h; cases h
    | some r2 =>
      rw [h2] at h
      simp only [] at h
      cases h3 : takeWhile1 isAsciiDigit r2 with
      | none => rw [h3] at h; cases h
      | some tr2 =>
        obtain ⟨v2, r3⟩ := tr2
        rw [h3] at h
        simp only [] at h
        cases h4 : eatChar '.' r3 with
        | none => rw [h4] at h; cases h
        | some r4 =>
          rw [h4] at h
          simp only [] at h
          cases h5 : takeWhile1 isAsciiDigit r4 with
          | none => rw [h5] at h; cases h
          | some tr3 =>
            obtain ⟨v3, r5⟩ := tr3
            rw [h5] at h
            simp only [] at h
            injection h with h6
            injection h6 with h7 h8
            obtain ⟨-, hn1, hd1, -⟩ := takeWhile1_some h1
            obtain ⟨-, hn2, hd2, -⟩ := takeWhile1_some h3
            obtain ⟨-, hn3, hd3, -⟩ := takeWhile1_some h5
            exact ⟨v1, v2, v3, h7.symm, hn1, hn2, hn3, hd1, hd2, hd3⟩

theorem matchNarr_sound {cs n : List Char} (h : matchNarr cs = some n) :
    (∃ c cs2, n = c :: cs2 ∧ isPySpace c = false) ∨
    (∃ c, isPySpace c = true ∧ n = [c]) := by
  unfold matchNarr at h
  simp only [] at h
  by_cases hw : (cs.takeWhile isPySpace).isEmpty = true
  · rw [if_pos hw] at h
    cases h
  · rw [if_neg hw] at h
    by_cases hr : (cs.dropWhile isPySpace).isEmpty = true
    · rw [if_pos hr] at h
      by_cases hlen : 2 ≤ (cs.takeWhile isPySpace).length
      · rw [if_pos hlen] at h
        cases hgl : (cs.takeWhile isPySpace).getLast? with
        | none =>
          rw [hgl] at h
          cases h
        | some c =>
          rw [hgl] at h
          simp only [Option.map] at h
          injection h with h2
          refine Or.inr ⟨c, ?_, h2.symm⟩
          exact List.mem_takeWhile_imp (List.mem_of_getLast?_eq_some hgl)
      · rw [if_neg hlen] at h
        cases h
    · rw [if_neg hr] at h
      injection h with h2
      cases hdk : cs.dropWhile isPySpace with
      | nil =>
        rw [hdk] at hr
        exact absurd rfl hr
      | cons c cs2 =>
        rw [hdk] at h2
        refine Or.inl ⟨c, cs2, h2.symm, ?_⟩
        have := List.head?_dropWhile_not isPySpace cs
        rw [hdk] at this
        exact this

theorem matchLayer_sound2 {cs l snd : List Char}
    (hml : matchLayer cs = (some l, snd)) :
    l ≠ [] ∧ ∀ c ∈ l, isAsciiAlpha c = true := by
  cases cs with
  | nil =>
    unfold matchLayer at hml
    injection hml with h1 _
    cases h1
  | cons c0 cs1 =>
    unfold matchLayer at hml
    simp only [] at hml
    by_cases hc0 : c0 = '['
    · rw [if_pos hc0] at hml
      cases htw : takeWhile1 isAsciiAlpha cs1 with
      | none =>
        rw [htw] at hml
        injection hml with h1 _
        cases h1
      | some tr =>
        obtain ⟨ls, rest⟩ := tr
        rw [htw] at hml
        simp only [] at hml
        cases rest with
        | nil =>
          injection hml with h1 _
          cases h1
        | cons r0 rest2 =>
          simp only [] at hml
          by_cases hr0 : r0 = ']'
          · rw [if_pos hr0] at hml
            injection hml with h1 _
            injection h1 with h2
            subst h2
            obtain ⟨-, hne, hall, -⟩ := takeWhile1_some htw
            exact ⟨hne, hall⟩
          · rw [if_neg hr0] at hml
            injection hml with h1 _
            cases h1
    · rw [if_neg hc0] at hml
      injection hml with h1 _
      cases h1

theorem matchAfterLayer_sound {ly : Option (List Char)} {cs1 : List Char}
    {g : TagGroups} (h : matchAfterLayer ly cs1 = some g) :
    g.layer = ly ∧
    (g.tag ≠ [] ∧ ∀ c ∈ g.tag, isTagChar c = true) ∧
    (∃ a b c, g.date = a ++ '-' :: (b ++ '-' :: c) ∧
      a.length = 4 ∧ b.length = 2 ∧ c.length = 2 ∧
      (∀ x ∈ a, isAsciiDigit x = true) ∧ (∀ x ∈ b, isAsciiDigit x = true) ∧
      (∀ x ∈ c, isAsciiDigit x = true)) ∧
    (∃ a b c, g.ver = a ++ '.' :: (b ++ '.' :: c) ∧
      a ≠ [] ∧ b ≠ [] ∧ c ≠ [] ∧
      (∀ x ∈ a, isAsciiDigit x = true) ∧ (∀ x ∈ b, isAsciiDigit x = true) ∧
      (∀ x ∈ c, isAsciiDigit x = true)) ∧
    ((∃ c cs, g.narr = c :: cs ∧ isPySpace c = false) ∨
     (∃ c, isPySpace c = true ∧ g.narr = [c])) := by
  unfold matchAfterLayer at h
  cases h1 : eatChar '\x7b' cs1 with
  | none => rw [h1] at h; cases h
  | some cs2 =>
    rw [h1] at h
    simp only [] at h
    cases h2 : takeWhile1 isTagChar cs2 with
    | none => rw [h2] at h; cases h
    | some tr1 =>
      obtain ⟨tg, cs3⟩ := tr1
      rw [h2] at h
      simp only [] at h
      cases h3 : eatChar '\x7d' cs3 with
      | none => rw [h3] at h; cases h
      | some cs4 =>
        rw [h3] at h
        simp only [] at h
        cases h4 : takeWhile1 isPySpace cs4 with
        | none => rw [h4] at h; cases h
        | some tr2 =>
          obtain ⟨w1, cs5⟩ := tr2
          rw [h4] at h
          simp only [] at h
          cases h5 : matchDate cs5 with
          | none => rw [h5] at h; cases h
          | some tr3 =>
            obtain ⟨dt, cs6⟩ := tr3
            rw [h5] at h
            simp only [] at h
            cases h6 : takeWhile1 isPySpace cs6 with
            | none => rw [h6] at h; cases h
            | some tr4 =>
              obtain ⟨w2, cs7⟩ := tr4
              rw [h6] at h
              simp only [] at h
              cases h7 : eatChar 'v' cs7 with
              | none => rw [h7] at h; cases h
              | some cs8 =>
                rw [h7] at h
                simp only [] at h
                cases h8 : matchVer cs8 with
                | none => rw [h8] at h; cases h
                | some tr5 =>
                  obtain ⟨vr, cs9⟩ := tr5
                  rw [h8] at h
                  simp only [] at h
                  cases h9 : takeWhile1 isPySpace cs9 with
                  | none => rw [h9] at h; cases h
                  | some tr6 =>
                    obtain ⟨w3, cs10⟩ := tr6
                    rw [h9] at h
                    simp only [] at h
                    cases h10 : eatChar '—' cs10 with
                    | none => rw [h10] at h; cases h
                    | some cs11 =>
                      rw [h10] at h
                      simp only [] at h
                      cases h11 : matchNarr cs11 with
                      | none => rw [h11] at h; cases h
                      | some nr =>
                        rw [h11] at h
                        injection h with h12
                        subst h12
                        obtain ⟨-, htagne, htagall, -⟩ := takeWhile1_some h2
                        exact ⟨rfl, ⟨htagne, htagall⟩, matchDate_sound h5,
                          matchVer_sound h8, matchNarr_sound h11⟩

theorem matchAfterTag_wf {cs : List Char} {g : TagGroups}
    (h : matchAfterTag cs = some g) : wfGroups g := by
  unfold matchAfterTag at h
  have hsound := matchAfterLayer_sound h
  refine ⟨?_, hsound.2.1, hsound.2.2.1, hsound.2.2.2.1, hsound.2.2.2.2⟩
  intro l hl
  cases hml : matchLayer cs with
  | mk fst snd =>
    have h2 := hsound.1
    rw [hml] at h2
    simp only [] at h2
    have hfst : fst = some l := h2.symm.trans hl
    subst hfst
    exact matchLayer_sound2 hml

theorem tagSearch_wf : ∀ {line : List Char} {g : TagGroups},
    tagSearch line = some g → wfGroups g := by
  intro line
  induction line with
  | nil =>
    intro g h
    cases h
  | cons c cs ih =>
    intro g h
    rw [tagSearch] at h
    cases he : eatLit tagLit (c :: cs) with
    | none =>
      rw [he] at h
      exact ih h
    | some rest =>
      rw [he] at h
      simp only [] at h
      cases hm : matchAfterTag rest with
      | none =>
        rw [hm] at h
        exact ih h
      | some g2 =>
        rw [hm] at h
        injection h with h2
        subst h2
        exact matchAfterTag_wf hm

/-! ### C8: re-parsing a correctly formatted annotation line -/

theorem takeWhile_dropWhile_append {p : Char → Bool} :
    ∀ {t r : List Char}, (∀ c ∈ t, p c = true) →
    (∀ c cs2, r = c :: cs2 → p c = false) →
    (t ++ r).takeWhile p = t ∧ (t ++ r).dropWhile p = r := by
  intro t
  induction t with
  | nil =>
    intro r _ hr
    cases r with
    | nil => exact ⟨rfl, rfl⟩
    | cons c cs2 =>
      have hc := hr c cs2 rfl
      simp [List.takeWhile_cons, List.dropWhile_cons, hc]
  | cons c cs ih =>
    intro r hall hr
    have hc : p c = true := hall c (List.mem_cons_self c cs)
    have ihr := ih (fun x hx => hall x (List.mem_cons_of_mem c hx)) hr
    simp [List.takeWhile_cons, List.dropWhile_cons, hc, ihr.1, ihr.2]

theorem takeWhile1_build {p : Char → Bool} {t r : List Char} (htne : t ≠ [])
    (hall : ∀ c ∈ t, p c = true) (hr : ∀ c cs2, r = c :: cs2 → p c = false) :
    takeWhile1 p (t ++ r) = some (t, r) := by
  obtain ⟨htw, hdw⟩ := takeWhile_dropWhile_append hall hr
  have hne2 : ¬(t.isEmpty = true) := by
    rw [List.isEmpty_iff]
    exact htne
  unfold takeWhile1
  rw [htw, hdw, if_neg hne2]

theorem eatChar_self (c : Char) (r : List Char) : eatChar c (c :: r) = some r := by
  unfold eatChar
  simp only []
  simp only [if_true]

theorem eatLit_self : ∀ (p r : List Char), eatLit p (p ++ r) = some r := by
  intro p
  induction p with
  | nil => intro r; rfl
  | cons c cs ih =>
    intro r
    show eatLit (c :: cs) (c :: (cs ++ r)) = some r
    unfold eatLit
    simp only []
    simp only [if_true]
    exact ih r

theorem takeDigits_build : ∀ {t r : List Char},
    (∀ x ∈ t, isAsciiDigit x = true) → takeDigits t.length (t ++ r) = some (t, r) := by
  intro t
  induction t with
  | nil => intro r _; rfl
  | cons c cs ih =>
    intro r hall
    have hc := hall c (List.mem_cons_self c cs)
    show takeDigits (cs.length + 1) (c :: (cs ++ r)) = some (c :: cs, r)
    unfold takeDigits
    rw [if_pos hc, ih (fun x hx => hall x (List.mem_cons_of_mem c hx))]
    rfl

theorem takeDigitsN_build {t r : List Char} {n : Nat} (hn : t.length = n)
    (hall : ∀ x ∈ t, isAsciiDigit x = true) : takeDigits n (t ++ r) = some (t, r) := by
  subst hn
  exact takeDigits_build hall

theorem matchDate_build {a b c r : List Char}
    (ha : a.length = 4) (hb : b.length = 2) (hc : c.length = 2)
    (haD : ∀ x ∈ a, isAsciiDigit x = true) (hbD : ∀ x ∈ b, isAsciiDigit x = true)
    (hcD : ∀ x ∈ c, isAsciiDigit x = true) :
    matchDate (a ++ ('-' :: (b ++ ('-' :: (c ++ r))))) =
      some (a ++ '-' :: (b ++ '-' :: c), r) := by
  unfold matchDate
  rw [takeDigitsN_build ha haD]
  simp only []
  rw [eatChar_self]
  simp only []
  rw [takeDigitsN_build hb hbD]
  simp only []
  rw [eatChar_self]
  simp only []
  rw [takeDigitsN_build hc hcD]

theorem matchVer_build {a b c r : List Char}
    (hane : a ≠ []) (hbne : b ≠ []) (hcne : c ≠ [])
    (haD : ∀ x ∈ a, isAsciiDigit x = true) (hbD : ∀ x ∈ b, isAsciiDigit x = true)
    (hcD : ∀ x ∈ c, isAsciiDigit x = true)
    (hr : ∀ x cs2, r = x :: cs2 → isAsciiDigit x = false) :
    matchVer (a ++ ('.' :: (b ++ ('.' :: (c ++ r))))) =
      some (a ++ '.' :: (b ++ '.' :: c), r) := by
  unfold matchVer
  rw [takeWhile1_build hane haD (headNot_concrete (by decide))]
  simp only []
  rw [eatChar_self]
  simp only []
  rw [takeWhile1_build hbne hbD (headNot_concrete (by decide))]
  simp only []
  rw [eatChar_self]
  simp only []
  rw [takeWhile1_build hcne hcD hr]

theorem matchNarr_build {narr : List Char}
    (h : (∃ c cs, narr = c :: cs ∧ isPySpace c = false) ∨
         (∃ c, isPySpace c = true ∧ narr = [c])) :
    matchNarr (' ' :: narr) = some narr := by
  have hsp : isPySpace ' ' = true := by decide
  unfold matchNarr
  rcases h with ⟨c, cs, rfl, hc⟩ | ⟨c, hc, rfl⟩
  · simp [List.takeWhile_cons, List.dropWhile_cons, hsp, hc]
  · simp [List.takeWhile_cons, List.dropWhile_cons, hsp, hc]

theorem matchLayer_none_build {cs : List Char}
    (h : ∀ c0 cs1, cs = c0 :: cs1 → c0 ≠ '[') : matchLayer cs = (none, cs) := by
  cases cs with
  | nil => rfl
  | cons c0 cs1 =>
    unfold matchLayer
    simp only []
    rw [if_neg (h c0 cs1 rfl)]

theorem matchLayer_some_build {l rest : List Char} (hlne : l ≠ [])
    (hall : ∀ c ∈ l, isAsciiAlpha c = true) :
    matchLayer ('[' :: (l ++ (']' :: rest))) = (some l, rest) := by
  unfold matchLayer
  simp only []
  simp only [if_true]
  rw [takeWhile1_build hlne hall (headNot_concrete (by decide))]
  simp only []
  simp only [if_true]

/-- the body of a correctly formatted annotation line after the optional
layer group: braced tag, space, date, space, `v` and version, a spaced em
dash, and the narrative -/
def fmtTail (g : TagGroups) : List Char :=
  '\x7b' :: (g.tag ++ ('\x7d' :: ' ' ::
    (g.date ++ (' ' :: 'v' :: (g.ver ++ (' ' :: '—' :: ' ' :: g.narr))))))

/-- the part of a correctly formatted annotation line after the `\Tag`
marker: the bracketed layer when the captured layer group is present,
then the tail -/
def fmtBody (g : TagGroups) : List Char :=
  match g.layer with
  | some l => '[' :: (l ++ (']' :: fmtTail g))
  | none => fmtTail g

/-- Modelled from the spec: the repository has no formatter, so this
builds the "correctly formatted annotation line" of the round-trip
property from the five captured fields — the `\Tag` marker, the optional
bracketed layer, the braced tag, the date, the `v`-prefixed version, the
spaced em-dash separator, and the note. -/
def fmtLine (g : TagGroups) : List Char := tagLit ++ fmtBody g

theorem matchAfterLayer_build (g : TagGroups) (hwf : wfGroups g)
    (ly : Option (List Char)) :
    matchAfterLayer ly (fmtTail g) = some ⟨ly, g.tag, g.date, g.ver, g.narr⟩ := by
  obtain ⟨-, ⟨htagne, htagall⟩, hdate, hver, hnarr⟩ := hwf
  obtain ⟨da, db, dc, hdeq, hda4, hdb2, hdc2, hdaD, hdbD, hdcD⟩ := hdate
  obtain ⟨va, vb, vc, hveq, hvane, hvbne, hvcne, hvaD, hvbD, hvcD⟩ := hver
  have hd1 : ∀ x cs2,
      g.date ++ (' ' :: 'v' :: (g.ver ++ (' ' :: '—' :: ' ' :: g.narr))) = x :: cs2 →
      isPySpace x = false := by
    intro x cs2 hx
    cases hda : da with
    | nil =>
      rw [hda] at hda4
      cases hda4
    | cons d1 da2 =>
      rw [hdeq, hda] at hx
      rw [List.cons_append, List.cons_append] at hx
      injection hx with h1 _
      rw [← h1]
      apply digit_not_space
      apply hdaD
      rw [hda]
      exact List.mem_cons_self d1 da2
  have hws1 : takeWhile1 isPySpace
      (' ' :: (g.date ++ (' ' :: 'v' :: (g.ver ++ (' ' :: '—' :: ' ' :: g.narr))))) =
      some ([' '], g.date ++ (' ' :: 'v' :: (g.ver ++ (' ' :: '—' :: ' ' :: g.narr)))) :=
    @takeWhile1_build isPySpace [' ']
      (g.date ++ (' ' :: 'v' :: (g.ver ++ (' ' :: '—' :: ' ' :: g.narr))))
      (by decide) (all_single (by decide)) hd1
  have hdt : matchDate (g.date ++ (' ' :: 'v' :: (g.ver ++ (' ' :: '—' :: ' ' :: g.narr)))) =
      some (g.date, ' ' :: 'v' :: (g.ver ++ (' ' :: '—' :: ' ' :: g.narr))) := by
    have harr : g.date ++ (' ' :: 'v' :: (g.ver ++ (' ' :: '—' :: ' ' :: g.narr))) =
        da ++ ('-' :: (db ++ ('-' ::
          (dc ++ (' ' :: 'v' :: (g.ver ++ (' ' :: '—' :: ' ' :: g.narr))))))) := by
      rw [hdeq]
      simp [List.append_assoc]
    rw [harr, matchDate_build hda4 hdb2 hdc2 hdaD hdbD hdcD, ← hdeq]
  have hws2 : takeWhile1 isPySpace
      (' ' :: 'v' :: (g.ver ++ (' ' :: '—' :: ' ' :: g.narr))) =
      some ([' '], 'v' :: (g.ver ++ (' ' :: '—' :: ' ' :: g.narr))) :=
    @takeWhile1_build isPySpace [' '] ('v' :: (g.ver ++ (' ' :: '—' :: ' ' :: g.narr)))
      (by decide) (all_single (by decide)) (headNot_concrete (by decide))
  have hvr : matchVer (g.ver ++ (' ' :: '—' :: ' ' :: g.narr)) =
      some (g.ver, ' ' :: '—' :: ' ' :: g.narr) := by
    have harr2 : g.ver ++ (' ' :: '—' :: ' ' :: g.narr) =
        va ++ ('.' :: (vb ++ ('.' :: (vc ++ (' ' :: '—' :: ' ' :: g.narr))))) := by
      rw [hveq]
      simp [List.append_assoc]
    rw [harr2, matchVer_build hvane hvbne hvcne hvaD hvbD hvcD
      (headNot_concrete (by decide)), ← hveq]
  have hws3 : takeWhile1 isPySpace (' ' :: '—' :: ' ' :: g.narr) =
      some ([' '], '—' :: ' ' :: g.narr) :=
    @takeWhile1_build isPySpace [' '] ('—' :: ' ' :: g.narr)
      (by decide) (all_single (by decide)) (headNot_concrete (by decide))
  unfold matchAfterLayer fmtTail
  rw [eatChar_self]
  simp only []
  rw [takeWhile1_build htagne htagall (headNot_concrete (by decide))]
  simp only []
  rw [eatChar_self]
  simp only []
  rw [hws1]
  simp only []
  rw [hdt]
  simp only []
  rw [hws2]
  simp only []
  rw [eatChar_self]
  simp only []
  rw [hvr]
  simp only []
  rw [hws3]
  simp only []
  rw [eatChar_self]
  simp only []
  rw [matchNarr_build hnarr]

theorem matchAfterTag_build {g : TagGroups} (hwf : wfGroups g) :
    matchAfterTag (fmtBody g) = some g := by
  cases hly : g.layer with
  | none =>
    have hb : fmtBody g = fmtTail g := by
      unfold fmtBody
      rw [hly]
    rw [hb]
    unfold matchAfterTag
    rw [matchLayer_none_build (fun c0 cs1 h => by
      unfold fmtTail at h
      injection h with h1 _
      rw [← h1]
      decide)]
    simp only []
    rw [matchAfterLayer_build g hwf none, ← hly]
  | some l =>
    obtain ⟨hlne, hlall⟩ := hwf.1 l hly
    have hb : fmtBody g = '[' :: (l ++ (']' :: fmtTail g)) := by
      unfold fmtBody
      rw [hly]
    rw [hb]
    unfold matchAfterTag
    rw [matchLayer_some_build hlne hlall]
    simp only []
    rw [matchAfterLayer_build g hwf (some l), ← hly]

/-- C8: annotation decomposition is idempotent: whenever the annotation
pattern matches a line, formatting the five captured fields back into a
correctly formatted annotation line and matching again yields exactly the
same five fields. -/
theorem C8_roundtrip (line : List Char) (g : TagGroups)
    (h : tagSearch line = some g) : tagSearch (fmtLine g) = some g := by
  have hwf := tagSearch_wf h
  have hbody := matchAfterTag_build hwf
  show tagSearch ('\\' :: ('T' :: 'a' :: 'g' :: fmtBody g)) = some g
  rw [tagSearch]
  have heat : eatLit tagLit ('\\' :: ('T' :: 'a' :: 'g' :: fmtBody g)) =
      some (fmtBody g) := eatLit_self tagLit (fmtBody g)
  rw [heat]
  simp only []
  rw [hbody]

/-- the concrete groups of the C8 witness, captured from the witness line -/
def g8 : TagGroups :=
  ⟨some "ONTO".toList, "SEED".toList, "2024-03-01".toList, "1.2.0".toList,
    "Initial seed.".toList⟩

theorem C8_roundtrip_witness : tagSearch (fmtLine g8) = some g8 :=
  C8_roundtrip c2tagline g8 (by decide)

theorem C10_external_token_shape_witness :
    tokShape ("ABC" : String).data ∧
    get_registry (load_registry_from_md ["## Structural stuff", "[ABC] yes"]) "A-B" =
      builtinGet "A-B" :=
  ⟨(C10_external_token_shape ["## Structural stuff", "[ABC] yes"] "ABC").1 (by decide),
   (C10_external_token_shape ["## Structural stuff", "[ABC] yes"] "A-B").2
     (Or.inl (by decide))⟩

end ScrapeTags
